import Mathlib

/-!
# Verification of `BlockFileCodec` (crates/net/downloaders/src/file_codec.rs)

Shallow embedding of the framed record codec. The codec is generic over a
structural record codec capability (`B: Decodable + Encodable` in the source,
provided externally by `alloy_rlp`); we model that capability as an explicit
record of functions and state the framing layer's behaviour over it.

Buffers (`BytesMut`) are modelled as `List UInt8`. The Rust `decode` receives
a mutable buffer; we model it as a function returning the outcome together
with the buffer's final contents. A potential panic (the `usize` subtraction
`src.len() - buf_slice.len()` underflowing, or `advance` being called with a
count exceeding the buffer length, both possible only if the structural
capability returns a "remaining" slice longer than its input) is modelled as
`none`.
-/

/-- The structural record codec capability (`alloy_rlp`'s
`Decodable`/`Encodable` in the source, external to this crate).
`decode` takes the byte slice and, on success, returns the parsed record
together with the remaining (unread) slice, mirroring `&mut &[u8]` updating
in Rust. `encodeInto` appends a record's serialization to a byte sink,
mirroring `Encodable::encode(&self, out: &mut dyn BufMut)`. -/
structure StructCodec (B : Type) (ε : Type) where
  decode : List UInt8 → Except ε (B × List UInt8)
  encodeInto : B → List UInt8 → List UInt8

/-- The bytes produced by serializing one record into an empty sink. -/
def StructCodec.encodedBytes {B ε : Type} (c : StructCodec B ε) (b : B) : List UInt8 :=
  c.encodeInto b []

/-- Modelled from the spec: `FileClientError` is declared in
`crates/net/downloaders/src/file_client.rs`, which is not part of the
supplied sources; only its `Rlp` variant is used by `file_codec.rs`
(`FileClientError::Rlp(err, src.to_vec())`). Per the spec's error payload
format, a parse error carries (a) the underlying structural error and (b) a
verbatim snapshot of the buffer bytes at the time of failure. -/
inductive FileClientError (ε : Type) where
  | Rlp : ε → List UInt8 → FileClientError ε
deriving DecidableEq

namespace BlockFileCodec

/-- `BlockFileCodec::decode` from `file_codec.rs`:

```rust
fn decode(&mut self, src: &mut BytesMut) -> Result<Option<Self::Item>, Self::Error> {
    if src.is_empty() {
        return Ok(None)
    }
    let buf_slice = &mut src.as_ref();
    let body = B::decode(buf_slice).map_err(|err| FileClientError::Rlp(err, src.to_vec()))?;
    src.advance(src.len() - buf_slice.len());
    Ok(Some(body))
}
```

The returned pair is (decode result, final buffer contents). `none` models a
panic: `src.len() - buf_slice.len()` underflows (or the subsequent `advance`
exceeds the buffer length) exactly when the structural capability returns a
remaining slice longer than the buffer it was given. -/
def decode {B ε : Type} (c : StructCodec B ε) (src : List UInt8) :
    Option (Except (FileClientError ε) (Option B) × List UInt8) :=
  if src.isEmpty then
    some (.ok none, src)
  else
    match c.decode src with
    | .error err => some (.error (.Rlp err src), src)
    | .ok (body, rest) =>
      if rest.length ≤ src.length then
        some (.ok (some body), src.drop (src.length - rest.length))
      else
        none

/-- `BlockFileCodec::encode` from `file_codec.rs`:

```rust
fn encode(&mut self, item: B, dst: &mut BytesMut) -> Result<(), Self::Error> {
    item.encode(dst);
    Ok(())
}
```

The result is (Ok, final sink contents). -/
def encode {B ε : Type} (c : StructCodec B ε) (item : B) (dst : List UInt8) :
    Except (FileClientError ε) Unit × List UInt8 :=
  (.ok (), c.encodeInto item dst)

end BlockFileCodec

/-! ## A concrete structural codec used to instantiate witnesses

A minimal length-prefixed format over single bytes: a record `n : UInt8` is
serialized as `[1, n]` (length prefix `1`, then the payload byte). This is a
lawful instance of the structural capability: decoding the encoding of a
record followed by any suffix returns the record and that suffix, decoding a
proper nonempty prefix fails, and successful decodes consume at least the
prefix byte. -/

def byteDecode (s : List UInt8) : Except Unit (UInt8 × List UInt8) :=
  match s with
  | x :: n :: rest => if x = 1 then .ok (n, rest) else .error ()
  | _ => .error ()

def byteCodec : StructCodec UInt8 Unit where
  decode := byteDecode
  encodeInto := fun n sink => sink ++ [1, n]

theorem byteCodec_encodedBytes (n : UInt8) : byteCodec.encodedBytes n = [1, n] := rfl

theorem byteCodec_roundtrip (n : UInt8) (S : List UInt8) :
    byteCodec.decode (byteCodec.encodedBytes n ++ S) = .ok (n, S) := by
  simp [byteCodec, byteDecode, StructCodec.encodedBytes]

theorem byteCodec_suffix (s : List UInt8) (b : UInt8) (rest : List UInt8)
    (h : byteCodec.decode s = .ok (b, rest)) : rest.length + 2 ≤ s.length := by
  match s with
  | [] => simp [byteCodec, byteDecode] at h
  | [x] => simp [byteCodec, byteDecode] at h
  | x :: n :: r =>
    simp only [byteCodec, byteDecode] at h
    by_cases hx : x = 1
    · simp [hx] at h
      obtain ⟨-, rfl⟩ := h
      simp
    · simp [hx] at h

theorem byteCodec_append (n : UInt8) (s : List UInt8) :
    byteCodec.encodeInto n s = s ++ byteCodec.encodedBytes n := rfl

theorem byteCodec_ne (n : UInt8) : byteCodec.encodedBytes n ≠ [] := by
  simp [byteCodec, StructCodec.encodedBytes]

theorem byteCodec_isSuffix (s : List UInt8) (b : UInt8) (rest : List UInt8)
    (h : byteCodec.decode s = .ok (b, rest)) : rest <:+ s := by
  match s with
  | [] => simp [byteCodec, byteDecode] at h
  | [x] => simp [byteCodec, byteDecode] at h
  | x :: n :: r =>
    simp only [byteCodec, byteDecode] at h
    by_cases hx : x = 1
    · simp [hx] at h
      obtain ⟨-, rfl⟩ := h
      exact ⟨[x, n], rfl⟩
    · simp [hx] at h

theorem byteCodec_progress (s : List UInt8) (b : UInt8) (rest : List UInt8)
    (h : byteCodec.decode s = .ok (b, rest)) : rest.length < s.length := by
  have := byteCodec_suffix s b rest h
  omega

/-! ## Shared decoding lemma -/

/-- If the structural capability round-trips on `encodedBytes R ++ S` and the
encoding of `R` is nonempty, the framing decoder extracts `R` and leaves
exactly `S` in the buffer. -/
theorem decode_encoded_prepend {B ε : Type} (c : StructCodec B ε) (R : B) (S : List UInt8)
    (hrt : c.decode (c.encodedBytes R ++ S) = .ok (R, S))
    (hne : c.encodedBytes R ≠ []) :
    BlockFileCodec.decode c (c.encodedBytes R ++ S) = some (.ok (some R), S) := by
  have hemp : (c.encodedBytes R ++ S).isEmpty = false := by
    cases h : c.encodedBytes R with
    | nil => exact absurd h hne
    | cons a l => simp [h]
  have hlen : S.length ≤ (c.encodedBytes R ++ S).length := by simp
  have hdrop : (c.encodedBytes R ++ S).drop ((c.encodedBytes R ++ S).length - S.length) = S := by
    have h1 : (c.encodedBytes R ++ S).length - S.length = (c.encodedBytes R).length := by
      simp
    rw [h1, List.drop_left]
  simp only [BlockFileCodec.decode, hemp, Bool.false_eq_true, if_false, hrt, hlen, if_true,
    hdrop]

/-! ## Claim theorems -/

/-- C1: for every valid record `R` (structural round-trip holds and its
encoding is nonempty) and every byte sequence `S`, decoding a buffer holding
`encode R ++ S` succeeds, returns `R`, consumes exactly `len (encode R)`
bytes from the front, and leaves the buffer contents equal to `S`. -/
theorem decode_roundtrip {B ε : Type} (c : StructCodec B ε) (R : B) (S : List UInt8)
    (hrt : c.decode (c.encodedBytes R ++ S) = .ok (R, S))
    (hne : c.encodedBytes R ≠ []) :
    BlockFileCodec.decode c (c.encodedBytes R ++ S) = some (.ok (some R), S) ∧
    (c.encodedBytes R ++ S).length - S.length = (c.encodedBytes R).length := by
  exact ⟨decode_encoded_prepend c R S hrt hne, by simp⟩

theorem decode_roundtrip_witness :
    BlockFileCodec.decode byteCodec (byteCodec.encodedBytes 5 ++ [7, 9]) =
      some (.ok (some 5), [7, 9]) ∧
    (byteCodec.encodedBytes 5 ++ [7, 9]).length - [7, 9].length =
      (byteCodec.encodedBytes 5).length :=
  decode_roundtrip byteCodec 5 [7, 9] (byteCodec_roundtrip 5 [7, 9]) (byteCodec_ne 5)

/-- C2: whenever decode succeeds with a record, the bytes consumed plus the
bytes remaining in the buffer equal the bytes present before the call, where
the consumed count is `buffer_length_before - buffer_length_after`. -/
theorem decode_byte_accounting {B ε : Type} (c : StructCodec B ε) (src : List UInt8)
    (b : B) (after : List UInt8)
    (h : BlockFileCodec.decode c src = some (.ok (some b), after)) :
    after.length ≤ src.length ∧
    (src.length - after.length) + after.length = src.length := by
  unfold BlockFileCodec.decode at h
  by_cases hemp : src.isEmpty
  · simp [hemp] at h
  · simp only [hemp, Bool.false_eq_true, if_false] at h
    cases hd : c.decode src with
    | error e => rw [hd] at h; simp at h
    | ok p =>
      obtain ⟨body, rest⟩ := p
      rw [hd] at h
      by_cases hle : rest.length ≤ src.length
      · simp only [hle, if_true, Option.some.injEq, Prod.mk.injEq] at h
        obtain ⟨-, rfl⟩ := h
        simp only [List.length_drop]
        omega
      · simp [hle] at h

theorem decode_byte_accounting_witness :
    ([] : List UInt8).length ≤ ([1, 5] : List UInt8).length ∧
    (([1, 5] : List UInt8).length - ([] : List UInt8).length) + ([] : List UInt8).length =
      ([1, 5] : List UInt8).length :=
  decode_byte_accounting byteCodec [1, 5] 5 [] rfl

/-- C4: decoding an empty buffer always yields the idle outcome `Ok(None)`,
never a parse error, and the buffer is left unchanged. -/
theorem decode_empty_idle {B ε : Type} (c : StructCodec B ε) :
    BlockFileCodec.decode c [] = some (.ok none, []) := rfl

/-- C3 counterexample: the empty list is a proper prefix of the encoding of
the record `5` under the concrete structural codec (`len [] < len [1, 5]`),
yet decoding a buffer containing exactly that prefix yields the idle
`Ok(None)` outcome, not a parse error — refuting the claim for the proper
prefix `P = []`. -/
theorem decode_empty_prefix_cex :
    ([] : List UInt8) <+: byteCodec.encodedBytes 5 ∧
    ([] : List UInt8).length < (byteCodec.encodedBytes 5).length ∧
    BlockFileCodec.decode byteCodec [] = some (.ok none, []) ∧
    ∀ (e : FileClientError Unit) (after : List UInt8),
      BlockFileCodec.decode byteCodec [] ≠ some (.error e, after) := by
  refine ⟨⟨byteCodec.encodedBytes 5, rfl⟩, by decide, rfl, ?_⟩
  intro e after h
  simp [BlockFileCodec.decode] at h

/-- C3 (amended to nonempty prefixes): for every valid record `R` and every
nonempty proper prefix `P` of its encoding on which the structural decoder
fails with error `e`, the framing decoder returns a parse error — never a
record — and the error carries both the underlying structural error `e` and
a verbatim copy of the buffer bytes at the time of failure, namely `P`. -/
theorem decode_truncation_error {B ε : Type} (c : StructCodec B ε) (R : B)
    (P : List UInt8) (e : ε)
    (hpre : P <+: c.encodedBytes R)
    (hlt : P.length < (c.encodedBytes R).length)
    (hne : P ≠ [])
    (hfail : c.decode P = .error e) :
    BlockFileCodec.decode c P = some (.error (.Rlp e P), P) := by
  have hemp : P.isEmpty = false := by
    cases P with
    | nil => exact absurd rfl hne
    | cons a l => rfl
  simp only [BlockFileCodec.decode, hemp, Bool.false_eq_true, if_false, hfail]

theorem decode_truncation_error_witness :
    ([1] : List UInt8) <+: byteCodec.encodedBytes 5 ∧
    ([1] : List UInt8).length < (byteCodec.encodedBytes 5).length ∧
    ([1] : List UInt8) ≠ [] ∧
    byteCodec.decode [1] = .error () ∧
    BlockFileCodec.decode byteCodec [1] = some (.error (.Rlp () [1]), [1]) :=
  ⟨by decide, by decide, by decide, rfl,
    decode_truncation_error byteCodec 5 [1] () (by decide) (by decide) (by decide) rfl⟩

/-- C5: encoding records `R1`, `R2`, `R3` in order into one sink (assuming
the structural encoder appends and produces nonempty, round-tripping
encodings), then seeding a buffer with the sink bytes and decoding
repeatedly, yields `R1`, `R2`, `R3` in that order; after the third decode
the buffer is empty, and a fourth decode returns the idle outcome. -/
theorem decode_concatenation {B ε : Type} (c : StructCodec B ε) (R1 R2 R3 : B)
    (hrt : ∀ (R : B) (S : List UInt8), c.decode (c.encodedBytes R ++ S) = .ok (R, S))
    (hne : ∀ R : B, c.encodedBytes R ≠ [])
    (happ : ∀ (b : B) (s : List UInt8), c.encodeInto b s = s ++ c.encodedBytes b) :
    (BlockFileCodec.encode c R3
        (BlockFileCodec.encode c R2 (BlockFileCodec.encode c R1 []).2).2).2 =
      c.encodedBytes R1 ++ (c.encodedBytes R2 ++ c.encodedBytes R3) ∧
    BlockFileCodec.decode c (c.encodedBytes R1 ++ (c.encodedBytes R2 ++ c.encodedBytes R3)) =
      some (.ok (some R1), c.encodedBytes R2 ++ c.encodedBytes R3) ∧
    BlockFileCodec.decode c (c.encodedBytes R2 ++ c.encodedBytes R3) =
      some (.ok (some R2), c.encodedBytes R3) ∧
    BlockFileCodec.decode c (c.encodedBytes R3) = some (.ok (some R3), []) ∧
    BlockFileCodec.decode c [] = some (.ok none, []) := by
  refine ⟨?_, decode_encoded_prepend c R1 _ (hrt R1 _) (hne R1),
    decode_encoded_prepend c R2 _ (hrt R2 _) (hne R2), ?_, rfl⟩
  · simp [BlockFileCodec.encode, happ]
  · have h := decode_encoded_prepend c R3 [] (hrt R3 []) (hne R3)
    simpa using h

theorem decode_concatenation_witness :
    (BlockFileCodec.encode byteCodec 5
        (BlockFileCodec.encode byteCodec 4 (BlockFileCodec.encode byteCodec 3 []).2).2).2 =
      byteCodec.encodedBytes 3 ++ (byteCodec.encodedBytes 4 ++ byteCodec.encodedBytes 5) ∧
    BlockFileCodec.decode byteCodec
        (byteCodec.encodedBytes 3 ++ (byteCodec.encodedBytes 4 ++ byteCodec.encodedBytes 5)) =
      some (.ok (some 3), byteCodec.encodedBytes 4 ++ byteCodec.encodedBytes 5) ∧
    BlockFileCodec.decode byteCodec (byteCodec.encodedBytes 4 ++ byteCodec.encodedBytes 5) =
      some (.ok (some 4), byteCodec.encodedBytes 5) ∧
    BlockFileCodec.decode byteCodec (byteCodec.encodedBytes 5) = some (.ok (some 5), []) ∧
    BlockFileCodec.decode byteCodec [] = some (.ok none, []) :=
  decode_concatenation byteCodec 3 4 5 byteCodec_roundtrip byteCodec_ne byteCodec_append

/-- C6: on a nonempty buffer, and provided the structural capability returns
a remaining slice no longer than its input, decode never returns the idle
`Ok(None)` outcome: it returns either a parse error (always of the single
`Rlp` kind, carrying the buffer bytes — truncation and genuine malformation
are indistinguishable) or a successfully decoded record. -/
theorem decode_nonempty_not_idle {B ε : Type} (c : StructCodec B ε) (src : List UInt8)
    (hne : src ≠ [])
    (hsuf : ∀ (b : B) (rest : List UInt8),
      c.decode src = .ok (b, rest) → rest.length ≤ src.length) :
    (∃ e : ε, BlockFileCodec.decode c src = some (.error (.Rlp e src), src)) ∨
    (∃ (b : B) (after : List UInt8),
      BlockFileCodec.decode c src = some (.ok (some b), after)) := by
  have hemp : src.isEmpty = false := by
    cases src with
    | nil => exact absurd rfl hne
    | cons a l => rfl
  cases hd : c.decode src with
  | error e =>
    left
    exact ⟨e, by simp only [BlockFileCodec.decode, hemp, Bool.false_eq_true, if_false, hd]⟩
  | ok p =>
    right
    obtain ⟨b, rest⟩ := p
    refine ⟨b, src.drop (src.length - rest.length), ?_⟩
    simp only [BlockFileCodec.decode, hemp, Bool.false_eq_true, if_false, hd,
      hsuf b rest hd, if_true]

theorem decode_nonempty_not_idle_witness :
    (∃ e : Unit, BlockFileCodec.decode byteCodec [9] = some (.error (.Rlp e [9]), [9])) ∨
    (∃ (b : UInt8) (after : List UInt8),
      BlockFileCodec.decode byteCodec [9] = some (.ok (some b), after)) :=
  decode_nonempty_not_idle byteCodec [9] (by decide)
    (fun b rest h => by simp [byteCodec, byteDecode] at h)

/-- C7: encode always succeeds, and (given the structural encoder appends
the record's serialized bytes) its only effect is to append `encode R` to
the end of the sink: the resulting sink equals the prior contents followed
by the record's canonical bytes, so pre-existing bytes are never truncated
or rewritten. -/
theorem encode_appends {B ε : Type} (c : StructCodec B ε) (R : B) (dst : List UInt8)
    (happ : ∀ s : List UInt8, c.encodeInto R s = s ++ c.encodedBytes R) :
    (BlockFileCodec.encode c R dst).1 = .ok () ∧
    (BlockFileCodec.encode c R dst).2 = dst ++ c.encodedBytes R ∧
    dst <+: (BlockFileCodec.encode c R dst).2 := by
  refine ⟨rfl, by simp [BlockFileCodec.encode, happ], ?_⟩
  rw [BlockFileCodec.encode, happ]
  exact ⟨c.encodedBytes R, rfl⟩

theorem encode_appends_witness :
    (BlockFileCodec.encode byteCodec 5 [9, 9]).1 = .ok () ∧
    (BlockFileCodec.encode byteCodec 5 [9, 9]).2 = [9, 9] ++ byteCodec.encodedBytes 5 ∧
    ([9, 9] : List UInt8) <+: (BlockFileCodec.encode byteCodec 5 [9, 9]).2 :=
  encode_appends byteCodec 5 [9, 9] (byteCodec_append 5)

/-- C8: provided the structural capability makes strict progress on this
buffer (its remaining slice is strictly shorter than its input, as a
length-prefixed encoding guarantees), every decode call that returns a
record consumes a strictly positive number of bytes. -/
theorem decode_consumes_pos {B ε : Type} (c : StructCodec B ε) (src : List UInt8)
    (hprog : ∀ (b : B) (rest : List UInt8),
      c.decode src = .ok (b, rest) → rest.length < src.length)
    (b : B) (after : List UInt8)
    (h : BlockFileCodec.decode c src = some (.ok (some b), after)) :
    0 < src.length - after.length := by
  unfold BlockFileCodec.decode at h
  by_cases hemp : src.isEmpty
  · simp [hemp] at h
  · simp only [hemp, Bool.false_eq_true, if_false] at h
    cases hd : c.decode src with
    | error e => rw [hd] at h; simp at h
    | ok p =>
      obtain ⟨body, rest⟩ := p
      rw [hd] at h
      have hlt := hprog body rest hd
      by_cases hle : rest.length ≤ src.length
      · simp only [hle, if_true, Option.some.injEq, Prod.mk.injEq] at h
        obtain ⟨-, rfl⟩ := h
        simp only [List.length_drop]
        omega
      · simp [hle] at h

theorem decode_consumes_pos_witness :
    0 < ([1, 5] : List UInt8).length - ([] : List UInt8).length :=
  decode_consumes_pos byteCodec [1, 5] (byteCodec_progress [1, 5]) 5 [] rfl

/-- C9: whenever decode returns a parse error, the buffer is left
byte-for-byte unchanged (the error path consumes nothing), and the error
carries a copy of the buffer's bytes together with the underlying structural
error. -/
theorem decode_error_atomic {B ε : Type} (c : StructCodec B ε) (src : List UInt8)
    (e : FileClientError ε) (after : List UInt8)
    (h : BlockFileCodec.decode c src = some (.error e, after)) :
    after = src ∧ ∃ er : ε, e = FileClientError.Rlp er src := by
  unfold BlockFileCodec.decode at h
  by_cases hemp : src.isEmpty
  · simp [hemp] at h
  · simp only [hemp, Bool.false_eq_true, if_false] at h
    cases hd : c.decode src with
    | error er =>
      rw [hd] at h
      simp only [Option.some.injEq, Prod.mk.injEq, Except.error.injEq] at h
      obtain ⟨he, rfl⟩ := h
      exact ⟨rfl, er, he.symm⟩
    | ok p =>
      obtain ⟨body, rest⟩ := p
      rw [hd] at h
      by_cases hle : rest.length ≤ src.length
      · simp [hle] at h
      · simp [hle] at h

theorem decode_error_atomic_witness :
    ([9] : List UInt8) = [9] ∧
    ∃ er : Unit, FileClientError.Rlp () [9] = FileClientError.Rlp er [9] :=
  decode_error_atomic byteCodec [9] (.Rlp () [9]) [9] rfl

/-- C10: under the precondition that the structural capability returns the
remaining input as a suffix of the slice it was given, the consumed-byte
subtraction never underflows and the buffer advance never exceeds the buffer
length, so decode is total (never reaches the panic outcome `none`). -/
theorem decode_total {B ε : Type} (c : StructCodec B ε) (src : List UInt8)
    (hsuf : ∀ (b : B) (rest : List UInt8), c.decode src = .ok (b, rest) → rest <:+ src) :
    (BlockFileCodec.decode c src).isSome = true := by
  unfold BlockFileCodec.decode
  by_cases hemp : src.isEmpty
  · simp [hemp]
  · simp only [hemp, Bool.false_eq_true, if_false]
    cases hd : c.decode src with
    | error e => rfl
    | ok p =>
      obtain ⟨body, rest⟩ := p
      have hle : rest.length ≤ src.length := (hsuf body rest hd).length_le
      simp [hle]

theorem decode_total_witness :
    (BlockFileCodec.decode byteCodec [1, 5]).isSome = true :=
  decode_total byteCodec [1, 5] (byteCodec_isSuffix [1, 5])
